import Mathlib

/-!
Verification of the hook-lifecycle mechanism of the openfeature package
(`pkg/openfeature/hooks.go`): the `HookHints` and `HookContext` value
objects, the `Hook` capability with its `UnimplementedHook` no-op default,
and the hook executor's invocation protocol.

Go's `map[string]interface{}` is a reference type: a map variable holds a
reference into a heap of map cells.  We embed that directly: `GoVal` models
the values an `interface{}` slot can hold (with `vnil` for the nil
interface), `GoMap` models one map cell's contents, `Heap` models the store
of allocated maps, and a map variable is a `Nat` reference (wrapped in
`Option` so that Go's nil map is representable as `none`).
-/

/-- A value held by a Go `interface` slot; `vnil` is the nil interface,
which is also what a Go map lookup returns for an absent key. -/
inductive GoVal where
  | vnil : GoVal
  | vbool : Bool → GoVal
  | vint : Int → GoVal
  | vstr : String → GoVal
deriving DecidableEq, Repr

/-- Contents of one allocated Go map cell: a finite partial mapping from
string keys to interface values (`none` = key absent). -/
def GoMap : Type := String → Option GoVal

/-- The store of allocated Go maps, indexed by map reference. -/
def Heap : Type := Nat → GoMap

/-- Go map assignment `m[k] = v`: updates the cell at reference `r` in
place; every alias of `r` observes the update. -/
def writeMap (heap : Heap) (r : Nat) (k : String) (v : GoVal) : Heap :=
  fun s => if s = r then (fun key => if key = k then some v else heap r key) else heap s

/-- `HookHints` from hooks.go: holds the map of hints.  The Go field
`mapOfHints map[string]interface` is a map reference; `none` models a Go
nil map. -/
structure HookHints where
  mapOfHints : Option Nat
deriving DecidableEq, Repr

/-- `NewHookHints` from hooks.go: stores the caller-supplied map value in
the struct (the Go code performs no copy of the map's contents). -/
def NewHookHints (mapOfHints : Option Nat) : HookHints :=
  { mapOfHints := mapOfHints }

/-- `HookHints.Value` from hooks.go: `return h.mapOfHints[key]`.  A Go map
read on a nil map, or for an absent key, yields the zero value of the
element type, here the nil interface `vnil`. -/
def HookHints.Value (h : HookHints) (heap : Heap) (key : String) : GoVal :=
  match h.mapOfHints with
  | none => GoVal.vnil
  | some r => (heap r key).getD GoVal.vnil

/-- The Go `Type` enumeration of flag types (external to hooks.go; its
exact constructors are irrelevant to the claims, only that it is a value). -/
inductive FlagType where
  | booleanT : FlagType
  | stringT : FlagType
  | numberT : FlagType
  | objectT : FlagType
deriving DecidableEq, Repr

/-- Opaque client identity, supplied by the caller and never interpreted
by this core. -/
structure ClientMetadata where
  name : String
deriving DecidableEq, Repr

/-- Opaque provider identity, supplied by the caller and never interpreted
by this core. -/
structure Metadata where
  name : String
deriving DecidableEq, Repr

/-- An opaque cancellation/deadline handle (Go's `context.Context`),
treated as a pure value. -/
def GoContext : Type := Nat

/-- The evaluation context: contextual attributes plus the embedded
cancellation/deadline handle. -/
structure EvaluationContext where
  targetingKey : String
  attributes : String → Option GoVal
  goCtx : GoContext

/-- Modelled from the spec: the `Context()`-style accessor of
`EvaluationContext` (its Go definition lives outside hooks.go) exposes the
cancellation/deadline handle embedded in the evaluation context. -/
def EvaluationContext.Context (e : EvaluationContext) : GoContext :=
  e.goCtx

/-- `HookContext` from hooks.go: the six base-level fields of a hook
context. -/
structure HookContext where
  flagKey : String
  flagType : FlagType
  defaultValue : GoVal
  clientMetadata : ClientMetadata
  providerMetadata : Metadata
  evaluationContext : EvaluationContext

/-- `HookContext.FlagKey` accessor from hooks.go. -/
def HookContext.FlagKey (h : HookContext) : String :=
  h.flagKey

/-- `HookContext.FlagType` accessor from hooks.go. -/
def HookContext.FlagType (h : HookContext) : FlagType :=
  h.flagType

/-- `HookContext.DefaultValue` accessor from hooks.go. -/
def HookContext.DefaultValue (h : HookContext) : GoVal :=
  h.defaultValue

/-- `HookContext.ClientMetadata` accessor from hooks.go. -/
def HookContext.ClientMetadata (h : HookContext) : ClientMetadata :=
  h.clientMetadata

/-- `HookContext.ProviderMetadata` accessor from hooks.go. -/
def HookContext.ProviderMetadata (h : HookContext) : Metadata :=
  h.providerMetadata

/-- `HookContext.EvaluationContext` accessor from hooks.go. -/
def HookContext.EvaluationContext (h : HookContext) : EvaluationContext :=
  h.evaluationContext

/-- `HookContext.Context` from hooks.go:
`return h.EvaluationContext().Context()`. -/
def HookContext.Context (h : HookContext) : GoContext :=
  h.EvaluationContext.Context

/-- `NewHookContext` from hooks.go: constructs a `HookContext` from all six
fields. -/
def NewHookContext (flagKey : String) (flagType : FlagType) (defaultValue : GoVal)
    (clientMetadata : ClientMetadata) (providerMetadata : Metadata)
    (evaluationContext : EvaluationContext) : HookContext :=
  { flagKey := flagKey
    flagType := flagType
    defaultValue := defaultValue
    clientMetadata := clientMetadata
    providerMetadata := providerMetadata
    evaluationContext := evaluationContext }

/-- Evaluation details handed to `After` (external to hooks.go; opaque to
the claims, only passed through). -/
structure InterfaceEvaluationDetails where
  value : GoVal
  flagKey : String

/-- The `Hook` interface from hooks.go, as a record of its four methods.
`Before` and `After` return an optional evaluation-context delta and an
optional error; `Error` and `Finally` return only an optional delta. -/
structure Hook where
  Before : HookContext → HookHints → Option EvaluationContext × Option String
  After : HookContext → InterfaceEvaluationDetails → HookHints →
    Option EvaluationContext × Option String
  Error : HookContext → String → HookHints → Option EvaluationContext
  Finally : HookContext → HookHints → Option EvaluationContext

/-- `UnimplementedHook` from hooks.go: implements all hook methods with
empty functions returning nil results. -/
def UnimplementedHook : Hook :=
  { Before := fun _ _ => (none, none)
    After := fun _ _ _ => (none, none)
    Error := fun _ _ _ => none
    Finally := fun _ _ => none }

/-!
The hook executor.  Its Go code is not part of hooks.go (the spec notes it
is "not shown in the excerpt but implied by the contract"), so the
definitions below are modelled from the spec's state machine (sections 4.4
and 7) and settled against that model.  For the invocation-order claims
only the success/failure outcome of each fallible stage matters, so a hook
is abstracted to those outcomes and the executor's observable behavior is
the trace of stage invocations plus the terminal error.
-/

/-- Modelled from the spec: the outcome of one hook's fallible stages.
`beforeErr = some e` means this hook's `Before` fails with error `e`;
`afterErr` likewise for `After`.  `Error` and `Finally` cannot fail by
contract. -/
structure HookBehavior where
  beforeErr : Option String
  afterErr : Option String
deriving DecidableEq, Repr

/-- One observable event of an evaluation: a stage invocation on the hook
at a given registration index, or the single resolution call. -/
inductive Ev where
  | beforeEv : Nat → Ev
  | afterEv : Nat → Ev
  | errorEv : Nat → Ev
  | finallyEv : Nat → Ev
  | resolveEv : Ev
deriving DecidableEq, Repr

/-- `revSeq n = [n-1, n-2, ..., 0]`: registration indices in reverse
registration order. -/
def revSeq : Nat → List Nat
  | 0 => []
  | n + 1 => n :: revSeq n

/-- Modelled from the spec: scanning hooks in registration order, the
first hook whose `Before` stage fails, as (registration index, error);
`none` when every `Before` succeeds. -/
def beforeFail : List HookBehavior → Option (Nat × String)
  | [] => none
  | h :: rest =>
    match h.beforeErr with
    | some e => some (0, e)
    | none => (beforeFail rest).map (fun p => (p.1 + 1, p.2))

/-- Scanning the hooks numbered `i, i+1, ...` in reverse registration
order, the first hook whose `After` stage fails, as (registration index,
error); `none` when every `After` succeeds. -/
def afterFailFrom : Nat → List HookBehavior → Option (Nat × String)
  | _, [] => none
  | i, h :: rest =>
    match afterFailFrom (i + 1) rest with
    | some p => some p
    | none => h.afterErr.map (fun e => (i, e))

/-- Modelled from the spec: scanning hooks in reverse registration order,
the first hook whose `After` stage fails, as (registration index, error);
`none` when every `After` succeeds. -/
def afterFail (hooks : List HookBehavior) : Option (Nat × String) :=
  afterFailFrom 0 hooks

/-- `Before` events for registration indices `0, 1, ..., m-1` in forward
registration order. -/
def beforeTrace (m : Nat) : List Ev :=
  (List.range m).map Ev.beforeEv

/-- Modelled from the spec: the hook executor's state machine
(`Pending → BeforeRunning → Resolving → (AfterRunning | ErrorRunning) →
FinallyRunning → Done`), denoted as the trace of stage invocations and the
terminal error of one evaluation.
`Before` runs in registration order and stops at the first failure; a
`Before` failure skips resolution and routes the error to the `Error` then
`Finally` stages of the hooks whose `Before` ran, in reverse order.  When
all `Before` stages succeed, resolution runs exactly once; on resolution
failure every hook gets `Error` then `Finally` in reverse order, on
success every hook gets `After` in reverse order (stopping at the first
`After` failure, which is promoted to the terminal error) and then
`Finally` in reverse order. -/
def execute (hooks : List HookBehavior) (resolveErr : Option String) :
    List Ev × Option String :=
  match beforeFail hooks with
  | some ke =>
      (beforeTrace (ke.1 + 1) ++ (revSeq (ke.1 + 1)).map Ev.errorEv
        ++ (revSeq (ke.1 + 1)).map Ev.finallyEv, some ke.2)
  | none =>
      match resolveErr with
      | some e =>
          (beforeTrace hooks.length ++ [Ev.resolveEv]
            ++ (revSeq hooks.length).map Ev.errorEv
            ++ (revSeq hooks.length).map Ev.finallyEv, some e)
      | none =>
          match afterFail hooks with
          | some je =>
              (beforeTrace hooks.length ++ [Ev.resolveEv]
                ++ ((revSeq hooks.length).filter (fun i => je.1 ≤ i)).map Ev.afterEv
                ++ (revSeq hooks.length).map Ev.finallyEv, some je.2)
          | none =>
              (beforeTrace hooks.length ++ [Ev.resolveEv]
                ++ (revSeq hooks.length).map Ev.afterEv
                ++ (revSeq hooks.length).map Ev.finallyEv, none)

/-- C1 counterexample: the map at reference 0 stores 1 under key "a"; the
HookHints value constructed from it reads 1, but after the caller writes 2
under "a" through the same reference, the same HookHints value reads 2 —
mutating the map after construction does change subsequent `Value`
results, so the constructor performs no copy. -/
theorem newHookHints_copy_counterexample :
    HookHints.Value (NewHookHints (some 0))
        (fun r => if r = 0 then (fun k => if k = "a" then some (GoVal.vint 1) else none)
          else fun _ => none) "a"
      ≠
    HookHints.Value (NewHookHints (some 0))
        (writeMap
          (fun r => if r = 0 then (fun k => if k = "a" then some (GoVal.vint 1) else none)
            else fun _ => none)
          0 "a" (GoVal.vint 2)) "a" := by
  decide

/-- C1 (amended): `NewHookHints` stores the caller-supplied map by
reference without copying, so caller-side mutation after construction is
visible: after writing `v` under key `k` through the stored reference, a
subsequent `Value k` call on the constructed HookHints returns `v`. -/
theorem newHookHints_aliases_map (heap : Heap) (r : Nat) (k : String) (v : GoVal) :
    HookHints.Value (NewHookHints (some r)) (writeMap heap r k v) k = v := by
  simp [HookHints.Value, NewHookHints, writeMap]

/-- C5 counterexample: the same HookHints value, for the same key "b",
returns the string "x" before a caller-side write to its underlying map
and the string "y" after it — so `Value` does not always return the value
stored at construction, and repeated calls with the same key can differ. -/
theorem hookHints_value_stability_counterexample :
    HookHints.Value (NewHookHints (some 1))
        (fun r => if r = 1 then (fun k => if k = "b" then some (GoVal.vstr "x") else none)
          else fun _ => none) "b"
      ≠
    HookHints.Value (NewHookHints (some 1))
        (writeMap
          (fun r => if r = 1 then (fun k => if k = "b" then some (GoVal.vstr "x") else none)
            else fun _ => none)
          1 "b" (GoVal.vstr "y")) "b" := by
  decide

/-- C5 (amended): for a fixed state of the underlying map (no intervening
caller-side mutation), `Value k` returns the value currently stored under
`k`, the nil sentinel when `k` is absent, and the same result on every
repeated call with the same key. -/
theorem hookHints_value_current_map (heap : Heap) (r : Nat) (k : String)
    (w : Option GoVal) (h : heap r k = w) :
    HookHints.Value (NewHookHints (some r)) heap k = w.getD GoVal.vnil ∧
    HookHints.Value (NewHookHints (some r)) heap k
      = HookHints.Value (NewHookHints (some r)) heap k := by
  refine ⟨?_, rfl⟩
  simp [HookHints.Value, NewHookHints, h]

/-- C5 witness: on a concrete heap whose map 0 stores 7 under "a",
`Value "a"` returns 7. -/
theorem hookHints_value_current_map_witness :
    HookHints.Value (NewHookHints (some 0))
        (fun _ => fun k => if k = "a" then some (GoVal.vint 7) else none) "a"
      = GoVal.vint 7 :=
  (hookHints_value_current_map
    (fun _ => fun k => if k = "a" then some (GoVal.vint 7) else none) 0 "a"
    (some (GoVal.vint 7)) rfl).1

/-- C6: constructing a HookContext via `NewHookContext` and reading each
of the six accessors returns exactly the value passed to the constructor;
all accessors are pure reads of an immutable value. -/
theorem newHookContext_accessor_roundtrip (flagKey : String) (flagType : FlagType)
    (defaultValue : GoVal) (clientMetadata : ClientMetadata)
    (providerMetadata : Metadata) (evaluationContext : EvaluationContext) :
    (NewHookContext flagKey flagType defaultValue clientMetadata providerMetadata
        evaluationContext).FlagKey = flagKey ∧
    (NewHookContext flagKey flagType defaultValue clientMetadata providerMetadata
        evaluationContext).FlagType = flagType ∧
    (NewHookContext flagKey flagType defaultValue clientMetadata providerMetadata
        evaluationContext).DefaultValue = defaultValue ∧
    (NewHookContext flagKey flagType defaultValue clientMetadata providerMetadata
        evaluationContext).ClientMetadata = clientMetadata ∧
    (NewHookContext flagKey flagType defaultValue clientMetadata providerMetadata
        evaluationContext).ProviderMetadata = providerMetadata ∧
    (NewHookContext flagKey flagType defaultValue clientMetadata providerMetadata
        evaluationContext).EvaluationContext = evaluationContext :=
  ⟨rfl, rfl, rfl, rfl, rfl, rfl⟩

/-- C7: `HookContext.Context` returns exactly the cancellation/deadline
handle embedded in the hook context's evaluation context. -/
theorem hookContext_context_eq (h : HookContext) :
    h.Context = h.EvaluationContext.Context :=
  rfl

/-- C8: every method of `UnimplementedHook` ignores all of its arguments
and returns the empty result: `Before` and `After` return a nil delta and
a nil error, `Error` and `Finally` return a nil delta. -/
theorem unimplementedHook_noop (hc : HookContext) (d : InterfaceEvaluationDetails)
    (e : String) (hh : HookHints) :
    UnimplementedHook.Before hc hh = (none, none) ∧
    UnimplementedHook.After hc d hh = (none, none) ∧
    UnimplementedHook.Error hc e hh = none ∧
    UnimplementedHook.Finally hc hh = none :=
  ⟨rfl, rfl, rfl, rfl⟩

/-- C9: `NewHookHints` accepts a nil map, and `Value` on the resulting
HookHints is defined for every key and every heap, returning the nil
sentinel. -/
theorem hookHints_nil_map_value (heap : Heap) (k : String) :
    HookHints.Value (NewHookHints none) heap k = GoVal.vnil :=
  rfl

/-- C10: a key stored with a nil value and an absent key are
indistinguishable through `Value`: both return the nil sentinel. -/
theorem hookHints_nil_value_indistinguishable (heapa heapb : Heap) (ra rb : Nat)
    (k : String) (ha : heapa ra k = some GoVal.vnil) (hb : heapb rb k = none) :
    HookHints.Value (NewHookHints (some ra)) heapa k
      = HookHints.Value (NewHookHints (some rb)) heapb k := by
  simp [HookHints.Value, NewHookHints, ha, hb]

/-- C10 witness: a concrete map storing nil under "a" and a concrete empty
map give the same `Value "a"` result. -/
theorem hookHints_nil_value_indistinguishable_witness :
    HookHints.Value (NewHookHints (some 0))
        (fun _ => fun k => if k = "a" then some GoVal.vnil else none) "a"
      = HookHints.Value (NewHookHints (some 0)) (fun _ => fun _ => none) "a" :=
  hookHints_nil_value_indistinguishable
    (fun _ => fun k => if k = "a" then some GoVal.vnil else none)
    (fun _ => fun _ => none) 0 0 "a" rfl rfl

theorem mem_revSeq (n i : Nat) : i ∈ revSeq n ↔ i < n := by
  induction n with
  | zero => simp [revSeq]
  | succ n ih =>
    simp only [revSeq, List.mem_cons, ih]
    omega

theorem beforeFail_eq_none (hooks : List HookBehavior)
    (hb : ∀ h ∈ hooks, h.beforeErr = none) : beforeFail hooks = none := by
  induction hooks with
  | nil => rfl
  | cons h rest ih =>
    have h0 : h.beforeErr = none := hb h (List.mem_cons_self h rest)
    have h1 : beforeFail rest = none :=
      ih (fun x hx => hb x (List.mem_cons_of_mem h hx))
    simp [beforeFail, h0, h1]

theorem afterFailFrom_eq_none (i : Nat) (hooks : List HookBehavior)
    (ha : ∀ h ∈ hooks, h.afterErr = none) : afterFailFrom i hooks = none := by
  induction hooks generalizing i with
  | nil => rfl
  | cons h rest ih =>
    have h0 : h.afterErr = none := ha h (List.mem_cons_self h rest)
    have h1 : afterFailFrom (i + 1) rest = none :=
      ih (i + 1) (fun x hx => ha x (List.mem_cons_of_mem h hx))
    simp [afterFailFrom, h0, h1]

theorem afterFail_eq_none (hooks : List HookBehavior)
    (ha : ∀ h ∈ hooks, h.afterErr = none) : afterFail hooks = none :=
  afterFailFrom_eq_none 0 hooks ha

theorem beforeFail_eq_some (hooks : List HookBehavior) (k : Nat) (hk : HookBehavior)
    (e : String) (hget : hooks[k]? = some hk) (hfail : hk.beforeErr = some e)
    (hprev : ∀ i, i < k → ∀ hi, hooks[i]? = some hi → hi.beforeErr = none) :
    beforeFail hooks = some (k, e) := by
  induction hooks generalizing k with
  | nil => simp at hget
  | cons h rest ih =>
    cases k with
    | zero =>
      rw [List.getElem?_cons_zero, Option.some_inj] at hget
      subst hget
      simp [beforeFail, hfail]
    | succ k =>
      have h0 : h.beforeErr = none :=
        hprev 0 (Nat.succ_pos k) h List.getElem?_cons_zero
      have hrest : beforeFail rest = some (k, e) := by
        refine ih k (by simpa using hget) ?_
        intro i hi hi2 hg
        exact hprev (i + 1) (by omega) hi2 (by simpa using hg)
      simp [beforeFail, h0, hrest]

/-- C2: when every hook's `Before` and `After` succeed and resolution
succeeds, the executor invokes `Before` on hooks in registration order,
then resolution exactly once, then `After` in reverse registration order,
then `Finally` in reverse registration order, and no error reaches the
caller. -/
theorem execute_success_trace (hooks : List HookBehavior)
    (hb : ∀ h ∈ hooks, h.beforeErr = none) (ha : ∀ h ∈ hooks, h.afterErr = none) :
    execute hooks none =
      (beforeTrace hooks.length ++ [Ev.resolveEv]
        ++ (revSeq hooks.length).map Ev.afterEv
        ++ (revSeq hooks.length).map Ev.finallyEv, none) ∧
    (execute hooks none).1.count Ev.resolveEv = 1 := by
  have h1 : beforeFail hooks = none := beforeFail_eq_none hooks hb
  have h2 : afterFail hooks = none := afterFail_eq_none hooks ha
  have he : execute hooks none =
      (beforeTrace hooks.length ++ [Ev.resolveEv]
        ++ (revSeq hooks.length).map Ev.afterEv
        ++ (revSeq hooks.length).map Ev.finallyEv, none) := by
    simp [execute, h1, h2]
  refine ⟨he, ?_⟩
  rw [he]
  have m1 : Ev.resolveEv ∉ (List.range hooks.length).map Ev.beforeEv := by
    simp
  have m2 : Ev.resolveEv ∉ (revSeq hooks.length).map Ev.afterEv := by
    simp
  have m3 : Ev.resolveEv ∉ (revSeq hooks.length).map Ev.finallyEv := by
    simp
  simp [beforeTrace, List.count_append, List.count_eq_zero.mpr m1,
    List.count_eq_zero.mpr m2, List.count_eq_zero.mpr m3]

/-- C2 witness: two all-success hooks A (index 0) and B (index 1) yield
the trace A.Before, B.Before, Resolve, B.After, A.After, B.Finally,
A.Finally with no error. -/
theorem execute_success_trace_witness :
    execute [⟨none, none⟩, ⟨none, none⟩] none =
      ([Ev.beforeEv 0, Ev.beforeEv 1, Ev.resolveEv, Ev.afterEv 1, Ev.afterEv 0,
        Ev.finallyEv 1, Ev.finallyEv 0], none) := by
  have h := (execute_success_trace [⟨none, none⟩, ⟨none, none⟩]
    (by decide) (by decide)).1
  rw [h]
  decide

/-- C3: when hook `k` is the first whose `Before` fails (with error `e`),
the executor invokes `Before` on hooks `0..k` in registration order, then
`Error` and `Finally` on hooks `k..0` in reverse registration order;
resolution never runs, hooks past `k` see no stage at all, and the caller
receives `e`. -/
theorem execute_before_failure (hooks : List HookBehavior) (k : Nat)
    (hk : HookBehavior) (e : String) (r : Option String)
    (hget : hooks[k]? = some hk) (hfail : hk.beforeErr = some e)
    (hprev : ∀ i, i < k → ∀ hi, hooks[i]? = some hi → hi.beforeErr = none) :
    execute hooks r =
      (beforeTrace (k + 1) ++ (revSeq (k + 1)).map Ev.errorEv
        ++ (revSeq (k + 1)).map Ev.finallyEv, some e) ∧
    Ev.resolveEv ∉ (execute hooks r).1 ∧
    ∀ i, k < i →
      Ev.beforeEv i ∉ (execute hooks r).1 ∧ Ev.afterEv i ∉ (execute hooks r).1 ∧
      Ev.errorEv i ∉ (execute hooks r).1 ∧ Ev.finallyEv i ∉ (execute hooks r).1 := by
  have h1 : beforeFail hooks = some (k, e) :=
    beforeFail_eq_some hooks k hk e hget hfail hprev
  have he : execute hooks r =
      (beforeTrace (k + 1) ++ (revSeq (k + 1)).map Ev.errorEv
        ++ (revSeq (k + 1)).map Ev.finallyEv, some e) := by
    simp [execute, h1]
  refine ⟨he, ?_, ?_⟩
  · rw [he]
    simp [beforeTrace]
  · intro i hi
    rw [he]
    refine ⟨?_, ?_, ?_, ?_⟩ <;>
      simp [beforeTrace, mem_revSeq, List.mem_append, List.mem_map] <;> omega

/-- C3 witness: hooks A (failing `Before` with "E") and B yield the trace
A.Before, A.Error, A.Finally with terminal error "E"; B sees no stage and
resolution never runs. -/
theorem execute_before_failure_witness :
    execute [⟨some "E", none⟩, ⟨none, none⟩] none =
      ([Ev.beforeEv 0, Ev.errorEv 0, Ev.finallyEv 0], some "E") := by
  have h := (execute_before_failure [⟨some "E", none⟩, ⟨none, none⟩] 0
    ⟨some "E", none⟩ "E" none rfl rfl
    (fun i hi hi2 hg => absurd hi (Nat.not_lt_zero i))).1
  rw [h]
  decide

/-- C4: when every `Before` succeeds but resolution fails with error `e`,
the executor invokes `Before` on every hook in registration order, then
resolution, then `Error` and `Finally` on every hook in reverse
registration order; `After` is never invoked and the caller receives `e`. -/
theorem execute_resolve_failure (hooks : List HookBehavior) (e : String)
    (hb : ∀ h ∈ hooks, h.beforeErr = none) :
    execute hooks (some e) =
      (beforeTrace hooks.length ++ [Ev.resolveEv]
        ++ (revSeq hooks.length).map Ev.errorEv
        ++ (revSeq hooks.length).map Ev.finallyEv, some e) ∧
    ∀ i, Ev.afterEv i ∉ (execute hooks (some e)).1 := by
  have h1 : beforeFail hooks = none := beforeFail_eq_none hooks hb
  have he : execute hooks (some e) =
      (beforeTrace hooks.length ++ [Ev.resolveEv]
        ++ (revSeq hooks.length).map Ev.errorEv
        ++ (revSeq hooks.length).map Ev.finallyEv, some e) := by
    simp [execute, h1]
  refine ⟨he, fun i => ?_⟩
  rw [he]
  simp [beforeTrace]

/-- C4 witness: hooks A and B with succeeding `Before` stages and a failing
resolution yield the trace A.Before, B.Before, Resolve, B.Error, A.Error,
B.Finally, A.Finally with terminal error "R" and no `After` invocation. -/
theorem execute_resolve_failure_witness :
    execute [⟨none, none⟩, ⟨none, none⟩] (some "R") =
      ([Ev.beforeEv 0, Ev.beforeEv 1, Ev.resolveEv, Ev.errorEv 1, Ev.errorEv 0,
        Ev.finallyEv 1, Ev.finallyEv 0], some "R") := by
  have h := (execute_resolve_failure [⟨none, none⟩, ⟨none, none⟩] "R"
    (by decide)).1
  rw [h]
  decide
